import Mathlib

set_option linter.unusedVariables false

/-! Shallow embedding of src/libpriqueue.c.

A `priqueue_t` mirrors the C struct: an explicit `size` field, the chain of
nodes reachable from `root` (modelled as the list of their `content`
pointers), and the `comparer` installed by `priqueue_init`.  Pointer values
are modelled by a type `α` with decidable equality (pointer identity).
C functions that can dereference a null pointer are modelled in `Option`:
the outer `none` is the null dereference (undefined behavior), `some`
carries the C return value, and a C `NULL` result is the inner `none`. -/

structure priqueue_t (α : Type) where
  size : Nat
  root : List α
  comparer : α → α → Int

def priqueue_init {α : Type} (comparer : α → α → Int) : priqueue_t α :=
  ⟨0, [], comparer⟩

/-- The while loop of `priqueue_offer`: `fuel` is `q->size - counter` and the
list is the part of the chain hanging off `now`.  Returns the rewritten part
of the chain together with the return value of `priqueue_offer` minus the
number of nodes already passed (the insert branch returns `counter`, the
fall-through after the loop executes `counter++` before returning).  `none`
models the null dereference of `now` when the chain is shorter than
`q->size`. -/
def offerLoop {α : Type} (cmp : α → α → Int) (item : α) :
    Nat → List α → Option (List α × Nat)
  | 0, _ => some ([item], 1)
  | _ + 1, [] => none
  | fuel + 1, now :: rest =>
    if 0 < cmp now item then
      some (item :: now :: rest, 0)
    else
      (offerLoop cmp item fuel rest).map (fun p => (now :: p.1, p.2 + 1))

def priqueue_offer {α : Type} (q : priqueue_t α) (ptr : α) :
    Option (priqueue_t α × Nat) :=
  match q.root with
  | [] => some (⟨q.size + 1, [ptr], q.comparer⟩, 0)
  | now :: rest =>
    if q.size = 0 then
      none
    else
      (offerLoop q.comparer ptr q.size (now :: rest)).map
        (fun p => (⟨q.size + 1, p.1, q.comparer⟩, p.2))

def priqueue_peek {α : Type} (q : priqueue_t α) : Option (Option α) :=
  if q.size = 0 then some none
  else
    match q.root with
    | [] => none
    | x :: _ => some (some x)

def priqueue_poll {α : Type} (q : priqueue_t α) :
    Option (Option α × priqueue_t α) :=
  if q.size = 0 then some (none, q)
  else
    match q.root with
    | [] => none
    | x :: rest => some (some x, ⟨q.size - 1, rest, q.comparer⟩)

/-- The walk of `priqueue_at`: advance `now` `n` times from `root`, then read
`now->content`; `none` models the null dereference when the chain is too
short. -/
def atLoop {α : Type} : List α → Nat → Option α
  | [], _ => none
  | x :: _, 0 => some x
  | _ :: rest, n + 1 => atLoop rest n

def priqueue_at {α : Type} (q : priqueue_t α) (index : Int) : Option (Option α) :=
  if (q.size : Int) ≤ index then some none
  else (atLoop q.root index.toNat).map some

/-- The scan of `priqueue_remove`: it visits exactly `q->size` nodes
(`fuel`), unlinking each whose content is pointer-equal to `ptr`.  Returns
the rewritten chain and the number removed; `none` models the null
dereference when the chain is shorter than `q->size`. -/
def removeLoop {α : Type} [DecidableEq α] (ptr : α) :
    Nat → List α → Option (List α × Nat)
  | 0, rest => some (rest, 0)
  | _ + 1, [] => none
  | fuel + 1, now :: rest =>
    if now = ptr then
      (removeLoop ptr fuel rest).map (fun p => (p.1, p.2 + 1))
    else
      (removeLoop ptr fuel rest).map (fun p => (now :: p.1, p.2))

def priqueue_remove {α : Type} [DecidableEq α] (q : priqueue_t α) (ptr : α) :
    Option (priqueue_t α × Nat) :=
  (removeLoop ptr q.size q.root).map
    (fun p => (⟨q.size - p.2, p.1, q.comparer⟩, p.2))

/-- The walk of `priqueue_remove_at` for a positive index: the node at that
position is unlinked (`last->next = now->next`) and its content returned;
`none` models the null dereference when the chain is too short. -/
def removeAtLoop {α : Type} : Nat → List α → Option (α × List α)
  | _, [] => none
  | 0, now :: rest => some (now, rest)
  | n + 1, now :: rest =>
    (removeAtLoop n rest).map (fun p => (p.1, now :: p.2))

def priqueue_remove_at {α : Type} (q : priqueue_t α) (index : Int) :
    Option (Option α × priqueue_t α) :=
  if (q.size : Int) ≤ index then some (none, q)
  else if index ≤ 0 then
    none
  else
    (removeAtLoop index.toNat q.root).map
      (fun p => (some p.1, ⟨q.size - 1, p.2, q.comparer⟩))

def priqueue_size {α : Type} (q : priqueue_t α) : Nat :=
  q.size

/-- Spec-side description of the insertion point, written from the spec's
words: the new item goes immediately before the first existing entry whose
content compares strictly greater than the item (`cmp(occupant, item) > 0`),
or at the end if no entry compares strictly greater. -/
def insertBeforeFirstGreater {α : Type} (cmp : α → α → Int) (item : α) :
    List α → List α
  | [] => [item]
  | x :: rest =>
    if 0 < cmp x item then item :: x :: rest
    else x :: insertBeforeFirstGreater cmp item rest

/-- A comparator is consistent when strict preference is asymmetric and
non-strict preference is transitive. -/
def ConsistentCmp {α : Type} (cmp : α → α → Int) : Prop :=
  (∀ a b, 0 < cmp a b → cmp b a ≤ 0) ∧
  (∀ a b c, cmp a b ≤ 0 → cmp b c ≤ 0 → cmp a c ≤ 0)

/-- Offer a list of items in order, propagating undefined behavior. -/
def offerAll {α : Type} : priqueue_t α → List α → Option (priqueue_t α)
  | q, [] => some q
  | q, x :: rest =>
    match priqueue_offer q x with
    | none => none
    | some p => offerAll p.1 rest

/-- Poll `n` times, collecting the returned items; `none` if a poll either
hits undefined behavior or comes back empty-handed. -/
def pollN {α : Type} : Nat → priqueue_t α → Option (List α × priqueue_t α)
  | 0, q => some ([], q)
  | n + 1, q =>
    match priqueue_poll q with
    | some (some x, q2) => (pollN n q2).map (fun p => (x :: p.1, p.2))
    | _ => none

/-- Queue states reachable from `priqueue_init` by successfully completed
operations. -/
inductive QueueReachable {α : Type} [DecidableEq α] : priqueue_t α → Prop where
  | init (cmp : α → α → Int) : QueueReachable (priqueue_init cmp)
  | offer {q q2 : priqueue_t α} {x : α} {i : Nat} :
      QueueReachable q → priqueue_offer q x = some (q2, i) → QueueReachable q2
  | poll {q q2 : priqueue_t α} {r : Option α} :
      QueueReachable q → priqueue_poll q = some (r, q2) → QueueReachable q2
  | remove {q q2 : priqueue_t α} {x : α} {n : Nat} :
      QueueReachable q → priqueue_remove q x = some (q2, n) → QueueReachable q2
  | removeAt {q q2 : priqueue_t α} {i : Int} {r : Option α} :
      QueueReachable q → priqueue_remove_at q i = some (r, q2) → QueueReachable q2

/-- Integer comparator used for concrete examples. -/
def intCmp (a b : Int) : Int := a - b

/-- Comparator on `Fin 3`, used where a witness must decide consistency. -/
def finCmp (a b : Fin 3) : Int := (a : Int) - (b : Int)

theorem insertBeforeFirstGreater_length {α : Type} (cmp : α → α → Int) (item : α) :
    ∀ l : List α, (insertBeforeFirstGreater cmp item l).length = l.length + 1
  | [] => rfl
  | x :: rest => by
    by_cases h : 0 < cmp x item
    · simp [insertBeforeFirstGreater, h]
    · simp [insertBeforeFirstGreater, h,
        insertBeforeFirstGreater_length cmp item rest]

theorem insertBeforeFirstGreater_perm {α : Type} (cmp : α → α → Int) (item : α) :
    ∀ l : List α, (insertBeforeFirstGreater cmp item l).Perm (item :: l)
  | [] => List.Perm.refl _
  | x :: rest => by
    by_cases h : 0 < cmp x item
    · simp [insertBeforeFirstGreater, h]
    · simp only [insertBeforeFirstGreater, h, if_neg, not_false_iff]
      exact ((insertBeforeFirstGreater_perm cmp item rest).cons x).trans
        (List.Perm.swap item x rest)

theorem insertBeforeFirstGreater_append {α : Type} (cmp : α → α → Int) (item : α) :
    ∀ l : List α, (∀ x ∈ l, cmp x item ≤ 0) →
      insertBeforeFirstGreater cmp item l = l ++ [item]
  | [], _ => rfl
  | x :: rest, h => by
    have hx : ¬ 0 < cmp x item := not_lt.2 (h x (List.mem_cons_self x rest))
    simp [insertBeforeFirstGreater, hx,
      insertBeforeFirstGreater_append cmp item rest
        (fun y hy => h y (List.mem_cons_of_mem x hy))]

theorem insertBeforeFirstGreater_pairwise {α : Type} {cmp : α → α → Int}
    (hc : ConsistentCmp cmp) (item : α) :
    ∀ {l : List α}, l.Pairwise (fun a b => cmp a b ≤ 0) →
      (insertBeforeFirstGreater cmp item l).Pairwise (fun a b => cmp a b ≤ 0)
  | [], _ => List.pairwise_singleton _ _
  | x :: rest, hp => by
    rw [List.pairwise_cons] at hp
    obtain ⟨hx, hrest⟩ := hp
    by_cases h : 0 < cmp x item
    · have hix : cmp item x ≤ 0 := hc.1 x item h
      simp only [insertBeforeFirstGreater, h, if_pos]
      rw [List.pairwise_cons]
      refine ⟨?_, ?_⟩
      · intro y hy
        rcases List.mem_cons.1 hy with hy | hy
        · exact hy ▸ hix
        · exact hc.2 item x y hix (hx y hy)
      · rw [List.pairwise_cons]
        exact ⟨hx, hrest⟩
    · have hxi : cmp x item ≤ 0 := not_lt.1 h
      simp only [insertBeforeFirstGreater, h, if_neg, not_false_iff]
      rw [List.pairwise_cons]
      refine ⟨?_, insertBeforeFirstGreater_pairwise hc item hrest⟩
      intro y hy
      have hy2 : y ∈ item :: rest :=
        (insertBeforeFirstGreater_perm cmp item rest).mem_iff.1 hy
      rcases List.mem_cons.1 hy2 with hy2 | hy2
      · exact hy2 ▸ hxi
      · exact hx y hy2

theorem offerLoop_eq {α : Type} (cmp : α → α → Int) (item : α) :
    ∀ l : List α, ∃ i : Nat,
      offerLoop cmp item l.length l =
        some (insertBeforeFirstGreater cmp item l, i)
  | [] => ⟨1, rfl⟩
  | x :: rest => by
    by_cases h : 0 < cmp x item
    · exact ⟨0, by simp [offerLoop, insertBeforeFirstGreater, h]⟩
    · obtain ⟨i, hi⟩ := offerLoop_eq cmp item rest
      exact ⟨i + 1, by simp [offerLoop, insertBeforeFirstGreater, h, hi]⟩

theorem priqueue_offer_eq {α : Type} {q : priqueue_t α} (item : α)
    (h : q.size = q.root.length) :
    ∃ i : Nat, priqueue_offer q item =
      some (⟨q.size + 1, insertBeforeFirstGreater q.comparer item q.root,
             q.comparer⟩, i) := by
  match hq : q.root with
  | [] => exact ⟨0, by simp [priqueue_offer, hq, insertBeforeFirstGreater]⟩
  | x :: rest =>
    have hsz : q.size = rest.length + 1 := by rw [h, hq]; rfl
    obtain ⟨i, hi⟩ := offerLoop_eq q.comparer item (x :: rest)
    refine ⟨i, ?_⟩
    simp only [List.length_cons] at hi
    simp [priqueue_offer, hq, hsz, hi]

theorem atLoop_eq {α : Type} :
    ∀ (l : List α) (n : Nat) (h : n < l.length),
      atLoop l n = some (l.get ⟨n, h⟩)
  | [], n, h => absurd h (Nat.not_lt_zero _)
  | x :: rest, 0, _ => rfl
  | x :: rest, n + 1, h =>
    atLoop_eq rest n (Nat.lt_of_succ_lt_succ h)

theorem removeLoop_eq {α : Type} [DecidableEq α] (ptr : α) :
    ∀ l : List α,
      removeLoop ptr l.length l =
        some (l.filter (fun x => x ≠ ptr), l.countP (fun x => x = ptr))
  | [] => rfl
  | x :: rest => by
    by_cases h : x = ptr
    · simp [removeLoop, h, removeLoop_eq ptr rest, List.filter_cons,
        List.countP_cons]
    · simp [removeLoop, h, removeLoop_eq ptr rest, List.filter_cons,
        List.countP_cons]

theorem filter_length_add_countP {α : Type} [DecidableEq α] (ptr : α) :
    ∀ l : List α,
      (l.filter (fun x => x ≠ ptr)).length + l.countP (fun x => x = ptr) =
        l.length
  | [] => rfl
  | x :: rest => by
    by_cases h : x = ptr
    · simp [List.filter_cons, List.countP_cons, h,
        ← filter_length_add_countP ptr rest]
      omega
    · simp [List.filter_cons, List.countP_cons, h,
        ← filter_length_add_countP ptr rest]
      omega

theorem removeAtLoop_eq {α : Type} :
    ∀ (n : Nat) (l : List α) (h : n < l.length),
      removeAtLoop n l = some (l.get ⟨n, h⟩, l.eraseIdx n)
  | n, [], h => absurd h (Nat.not_lt_zero _)
  | 0, x :: rest, _ => rfl
  | n + 1, x :: rest, h => by
    simp [removeAtLoop, removeAtLoop_eq n rest (Nat.lt_of_succ_lt_succ h),
      List.eraseIdx]

/-- C1: the claim fails on the code.  Offering 7 into the size-1 queue [5]
(ascending integer comparator) appends it at index 1, yet `priqueue_offer`
returns 2 because the fall-through path increments `counter` once more
before returning; `priqueue_at` at the returned index 2 yields NULL instead
of the item, which sits at index 1. -/
theorem c1_offer_tail_returns_size_plus_one :
    priqueue_offer (⟨1, [5], intCmp⟩ : priqueue_t Int) 7 =
      some (⟨2, [5, 7], intCmp⟩, 2) ∧
    priqueue_at (⟨2, [5, 7], intCmp⟩ : priqueue_t Int) 2 = some none ∧
    priqueue_at (⟨2, [5, 7], intCmp⟩ : priqueue_t Int) 1 = some (some 7) :=
  ⟨rfl, rfl, rfl⟩

/-- C2: the claim fails on the code.  `priqueue_remove_at` at index 0 of the
non-empty queue [5] dereferences the NULL pointer `last` in
`last->next = now->next` (modelled as the outer `none`), instead of removing
and returning the head entry. -/
theorem c2_remove_at_zero_crashes :
    priqueue_remove_at (⟨1, [5], intCmp⟩ : priqueue_t Int) 0 = none :=
  rfl

/-- C3: the claim fails on the code.  `priqueue_at` only checks
`index >= size`, so `at(-1)` on the non-empty queue [5] walks zero steps and
returns the content at position 0 instead of NULL; on the empty queue,
`at(-1)` passes the guard and dereferences the NULL `root` (outer `none`). -/
theorem c3_at_negative_returns_head :
    priqueue_at (⟨1, [5], intCmp⟩ : priqueue_t Int) (-1) = some (some 5) ∧
    priqueue_at (⟨0, [], intCmp⟩ : priqueue_t Int) (-1) = none :=
  ⟨rfl, rfl⟩

/-- C4: on a well-formed sorted queue, `priqueue_offer` rewrites the chain to
`insertBeforeFirstGreater`, i.e. the new entry goes immediately before the
first existing entry comparing strictly greater, or at the end when none
does; and when every existing entry compares less-or-equal (in particular
all entries comparing equal to the item), the new entry lands after all of
them, which keeps two equal items in their offer order. -/
theorem c4_offer_inserts_before_first_greater {α : Type}
    (q : priqueue_t α) (ptr : α) (hsz : q.size = q.root.length)
    (hsort : q.root.Chain' (fun a b => q.comparer a b ≤ 0)) :
    (∃ i, priqueue_offer q ptr =
        some (⟨q.size + 1, insertBeforeFirstGreater q.comparer ptr q.root,
               q.comparer⟩, i)) ∧
    ((∀ x ∈ q.root, q.comparer x ptr ≤ 0) →
      insertBeforeFirstGreater q.comparer ptr q.root = q.root ++ [ptr]) :=
  ⟨priqueue_offer_eq ptr hsz,
   fun hall => insertBeforeFirstGreater_append q.comparer ptr q.root hall⟩

/-- C4 witness: inserting 4 into the sorted queue [3, 5]. -/
theorem c4_offer_inserts_before_first_greater_witness :
    ((2 : Nat) = ([3, 5] : List Int).length ∧
      List.Chain' (fun a b => intCmp a b ≤ 0) [3, 5]) ∧
    ((∃ i, priqueue_offer (⟨2, [3, 5], intCmp⟩ : priqueue_t Int) 4 =
        some (⟨3, insertBeforeFirstGreater intCmp 4 [3, 5], intCmp⟩, i)) ∧
     ((∀ x ∈ ([3, 5] : List Int), intCmp x 4 ≤ 0) →
        insertBeforeFirstGreater intCmp 4 [3, 5] = [3, 5] ++ [4])) :=
  ⟨⟨rfl, by norm_num [List.chain'_cons, List.chain'_singleton, intCmp]⟩,
   c4_offer_inserts_before_first_greater ⟨2, [3, 5], intCmp⟩ 4 rfl
     (by norm_num [List.chain'_cons, List.chain'_singleton, intCmp])⟩

/-- C6: `priqueue_remove` on a well-formed queue removes exactly the entries
whose content is pointer-equal to `ptr` (the comparator is never consulted),
returns their number, decreases `size` by that count, and keeps the
remaining entries in their original relative order. -/
theorem c6_remove_all_pointer_equal {α : Type} [DecidableEq α]
    (q : priqueue_t α) (ptr : α) (hsz : q.size = q.root.length) :
    priqueue_remove q ptr =
      some (⟨q.size - q.root.countP (fun x => x = ptr),
             q.root.filter (fun x => x ≠ ptr), q.comparer⟩,
            q.root.countP (fun x => x = ptr)) := by
  simp [priqueue_remove, hsz, removeLoop_eq]

/-- C6 witness: the spec scenario [a, b, a, c] rendered as [1, 2, 1, 3];
removing 1 returns count 2 and leaves [2, 3]. -/
theorem c6_remove_all_pointer_equal_witness :
    ((4 : Nat) = ([1, 2, 1, 3] : List Int).length) ∧
    priqueue_remove (⟨4, [1, 2, 1, 3], intCmp⟩ : priqueue_t Int) 1 =
      some (⟨2, [2, 3], intCmp⟩, 2) :=
  ⟨rfl, c6_remove_all_pointer_equal ⟨4, [1, 2, 1, 3], intCmp⟩ 1 rfl⟩

/-- C7: on the freshly initialized (empty) queue, peek, poll and at(0)
return NULL, remove returns 0 and remove_at(0) returns NULL, all leaving the
state untouched. -/
theorem c7_empty_queue_behavior {α : Type} [DecidableEq α]
    (cmp : α → α → Int) (ptr : α) :
    priqueue_peek (priqueue_init cmp) = some none ∧
    priqueue_poll (priqueue_init cmp) = some (none, priqueue_init cmp) ∧
    priqueue_at (priqueue_init cmp) 0 = some none ∧
    priqueue_remove (priqueue_init cmp) ptr = some (priqueue_init cmp, 0) ∧
    priqueue_remove_at (priqueue_init cmp) 0 = some (none, priqueue_init cmp) :=
  ⟨rfl, rfl, rfl, rfl, rfl⟩

/-- C7 witness: the empty integer queue. -/
theorem c7_empty_queue_behavior_witness :
    priqueue_peek (priqueue_init intCmp) = some none ∧
    priqueue_poll (priqueue_init intCmp) = some (none, priqueue_init intCmp) ∧
    priqueue_at (priqueue_init intCmp) 0 = some none ∧
    priqueue_remove (priqueue_init intCmp) 7 = some (priqueue_init intCmp, 0) ∧
    priqueue_remove_at (priqueue_init intCmp) 0 =
      some (none, priqueue_init intCmp) :=
  c7_empty_queue_behavior intCmp 7

/-- C10: when no entry of a well-formed queue is pointer-equal to `ptr`,
`priqueue_remove` returns 0 and the queue comes back exactly as it was. -/
theorem c10_remove_absent_ptr_noop {α : Type} [DecidableEq α]
    (q : priqueue_t α) (ptr : α) (hsz : q.size = q.root.length)
    (hmem : ptr ∉ q.root) :
    priqueue_remove q ptr = some (q, 0) := by
  obtain ⟨sz, root, cmp⟩ := q
  dsimp only at hsz hmem
  subst hsz
  have h1 : root.filter (fun x => x ≠ ptr) = root := by
    rw [List.filter_eq_self]
    intro a ha
    simpa using fun (he : a = ptr) => hmem (he ▸ ha)
  have h2 : root.countP (fun x => x = ptr) = 0 := by
    rw [List.countP_eq_zero]
    intro a ha
    simpa using fun (he : a = ptr) => hmem (he ▸ ha)
  simp [priqueue_remove, removeLoop_eq, h1, h2]
  exact fun a ha he => hmem (he ▸ ha)

/-- C10 witness: removing 9, absent from the queue [2, 3]. -/
theorem c10_remove_absent_ptr_noop_witness :
    ((2 : Nat) = ([2, 3] : List Int).length ∧ (9 : Int) ∉ ([2, 3] : List Int)) ∧
    priqueue_remove (⟨2, [2, 3], intCmp⟩ : priqueue_t Int) 9 =
      some (⟨2, [2, 3], intCmp⟩, 0) :=
  ⟨⟨rfl, by decide⟩,
   c10_remove_absent_ptr_noop ⟨2, [2, 3], intCmp⟩ 9 rfl (by decide)⟩

theorem poll_step {α : Type} {q q2 : priqueue_t α} {r : Option α}
    (hstep : priqueue_poll q = some (r, q2)) (hsz : q.size = q.root.length) :
    q2.size = q2.root.length ∧ q2.comparer = q.comparer ∧
    ∀ R : α → α → Prop, q.root.Pairwise R → q2.root.Pairwise R := by
  unfold priqueue_poll at hstep
  split at hstep
  · rw [Option.some.injEq, Prod.mk.injEq] at hstep
    obtain ⟨-, hq⟩ := hstep
    subst hq
    exact ⟨hsz, rfl, fun R hp => hp⟩
  · split at hstep
    · exact absurd hstep (by simp)
    · rename_i x rest heq
      rw [Option.some.injEq, Prod.mk.injEq] at hstep
      obtain ⟨-, hq⟩ := hstep
      subst hq
      refine ⟨?_, rfl, ?_⟩
      · rw [hsz, heq]
        simp
      · intro R hp
        rw [heq] at hp
        exact hp.of_cons

theorem remove_step {α : Type} [DecidableEq α] {q q2 : priqueue_t α} {x : α}
    {n : Nat} (hstep : priqueue_remove q x = some (q2, n))
    (hsz : q.size = q.root.length) :
    q2.size = q2.root.length ∧ q2.comparer = q.comparer ∧
    ∀ R : α → α → Prop, q.root.Pairwise R → q2.root.Pairwise R := by
  rw [priqueue_remove, hsz, removeLoop_eq] at hstep
  simp only [Option.map_some', Option.some.injEq, Prod.mk.injEq] at hstep
  obtain ⟨hq, -⟩ := hstep
  subst hq
  refine ⟨?_, rfl, ?_⟩
  · have h1 := filter_length_add_countP x q.root
    simp only
    omega
  · intro R hp
    exact hp.sublist (List.filter_sublist _)

theorem removeAt_step {α : Type} {q q2 : priqueue_t α} {i : Int}
    {r : Option α} (hstep : priqueue_remove_at q i = some (r, q2))
    (hsz : q.size = q.root.length) :
    q2.size = q2.root.length ∧ q2.comparer = q.comparer ∧
    ∀ R : α → α → Prop, q.root.Pairwise R → q2.root.Pairwise R := by
  unfold priqueue_remove_at at hstep
  split at hstep
  · rw [Option.some.injEq, Prod.mk.injEq] at hstep
    obtain ⟨-, hq⟩ := hstep
    subst hq
    exact ⟨hsz, rfl, fun R hp => hp⟩
  · split at hstep
    · exact absurd hstep (by simp)
    · rename_i hge hle
      have hlt : i.toNat < q.root.length := by
        rw [← hsz]
        omega
      rw [removeAtLoop_eq i.toNat q.root hlt] at hstep
      simp only [Option.map_some', Option.some.injEq, Prod.mk.injEq] at hstep
      obtain ⟨-, hq⟩ := hstep
      subst hq
      refine ⟨?_, rfl, ?_⟩
      · have h1 := List.length_eraseIdx_add_one hlt
        simp only
        omega
      · intro R hp
        exact hp.sublist (List.eraseIdx_sublist _ _)

/-- Invariant of all reachable queue states: the `size` field counts the
chain nodes, and, for a consistent comparator, the chain is pairwise
non-decreasing. -/
theorem reachable_inv {α : Type} [DecidableEq α] {q : priqueue_t α}
    (h : QueueReachable q) :
    q.size = q.root.length ∧
    (ConsistentCmp q.comparer →
      q.root.Pairwise (fun a b => q.comparer a b ≤ 0)) := by
  induction h with
  | init cmp => exact ⟨rfl, fun _ => List.Pairwise.nil⟩
  | offer hq hstep ih =>
    obtain ⟨hsz, hsort⟩ := ih
    obtain ⟨i, hi⟩ := priqueue_offer_eq _ hsz
    have h2 := hstep.symm.trans hi
    rw [Option.some.injEq, Prod.mk.injEq] at h2
    obtain ⟨hq2, -⟩ := h2
    subst hq2
    constructor
    · simp [insertBeforeFirstGreater_length, hsz]
    · intro hc
      exact insertBeforeFirstGreater_pairwise hc _ (hsort hc)
  | poll hq hstep ih =>
    obtain ⟨hsz, hsort⟩ := ih
    obtain ⟨h1, h2, h3⟩ := poll_step hstep hsz
    refine ⟨h1, ?_⟩
    rw [h2]
    exact fun hc => h3 _ (hsort hc)
  | remove hq hstep ih =>
    obtain ⟨hsz, hsort⟩ := ih
    obtain ⟨h1, h2, h3⟩ := remove_step hstep hsz
    refine ⟨h1, ?_⟩
    rw [h2]
    exact fun hc => h3 _ (hsort hc)
  | removeAt hq hstep ih =>
    obtain ⟨hsz, hsort⟩ := ih
    obtain ⟨h1, h2, h3⟩ := removeAt_step hstep hsz
    refine ⟨h1, ?_⟩
    rw [h2]
    exact fun hc => h3 _ (hsort hc)

/-- C5: sorted-order invariant: with a consistent comparator, every queue
state reachable from initialization by offer, poll, remove and remove_at
has every adjacent pair (a, b) of its chain satisfying cmp(a, b) <= 0. -/
theorem c5_sorted_invariant {α : Type} [DecidableEq α] {q : priqueue_t α}
    (hc : ConsistentCmp q.comparer) (hr : QueueReachable q) :
    q.root.Chain' (fun a b => q.comparer a b ≤ 0) :=
  ((reachable_inv hr).2 hc).chain'

/-- C5 witness: the queue [2] over `Fin 3`, reached by one offer. -/
theorem c5_sorted_invariant_witness :
    ConsistentCmp finCmp ∧
    List.Chain' (fun a b => finCmp a b ≤ 0) [(2 : Fin 3)] :=
  ⟨by unfold ConsistentCmp; decide,
   @c5_sorted_invariant (Fin 3) _ ⟨1, [2], finCmp⟩
     (show ConsistentCmp finCmp by unfold ConsistentCmp; decide)
     (QueueReachable.offer (QueueReachable.init finCmp) rfl)⟩

/-- C8: in every state reachable from initialization by offer, poll, remove
and remove_at, the size field equals the number of nodes reachable from the
head, and every position below the size is retrievable by priqueue_at. -/
theorem c8_size_matches_chain {α : Type} [DecidableEq α] {q : priqueue_t α}
    (hr : QueueReachable q) :
    priqueue_size q = q.root.length ∧
    ∀ i : Nat, i < priqueue_size q →
      ∃ x, priqueue_at q (i : Int) = some (some x) := by
  have hsz := (reachable_inv hr).1
  refine ⟨hsz, fun i hi => ?_⟩
  have hlt : i < q.root.length := by
    rw [← hsz]
    exact hi
  refine ⟨q.root.get ⟨i, hlt⟩, ?_⟩
  have hguard : ¬ ((q.size : Int) ≤ (i : Int)) := by
    have h2 : i < q.size := hi
    omega
  rw [priqueue_at, if_neg hguard, Int.toNat_natCast i,
    atLoop_eq q.root i hlt]
  rfl

/-- C8 witness: the queue [5] reached by one offer. -/
theorem c8_size_matches_chain_witness :
    priqueue_size (⟨1, [5], intCmp⟩ : priqueue_t Int) =
      ([5] : List Int).length ∧
    ∀ i : Nat, i < priqueue_size (⟨1, [5], intCmp⟩ : priqueue_t Int) →
      ∃ x, priqueue_at (⟨1, [5], intCmp⟩ : priqueue_t Int) (i : Int) =
        some (some x) :=
  c8_size_matches_chain
    (QueueReachable.offer (QueueReachable.init intCmp) rfl)

theorem pollN_eq {α : Type} :
    ∀ (root : List α) (cmp : α → α → Int),
      pollN root.length ⟨root.length, root, cmp⟩ = some (root, ⟨0, [], cmp⟩)
  | [], cmp => rfl
  | x :: rest, cmp => by
    simp [pollN, priqueue_poll, pollN_eq rest cmp]

theorem offerAll_eq {α : Type} :
    ∀ (l : List α) (q : priqueue_t α), q.size = q.root.length →
      ∃ q2, offerAll q l = some q2 ∧ q2.comparer = q.comparer ∧
        q2.size = q2.root.length ∧ q2.root.Perm (l ++ q.root) ∧
        (ConsistentCmp q.comparer →
          q.root.Pairwise (fun a b => q.comparer a b ≤ 0) →
          q2.root.Pairwise (fun a b => q.comparer a b ≤ 0))
  | [], q, hsz => ⟨q, rfl, rfl, hsz, List.Perm.refl _, fun _ hp => hp⟩
  | x :: rest, q, hsz => by
    obtain ⟨i, hi⟩ := priqueue_offer_eq x hsz
    have hsz1 : (⟨q.size + 1, insertBeforeFirstGreater q.comparer x q.root,
        q.comparer⟩ : priqueue_t α).size =
        (⟨q.size + 1, insertBeforeFirstGreater q.comparer x q.root,
          q.comparer⟩ : priqueue_t α).root.length := by
      simp [insertBeforeFirstGreater_length, hsz]
    obtain ⟨q2, h1, h2, h3, h4, h5⟩ := offerAll_eq rest _ hsz1
    refine ⟨q2, ?_, h2, h3, ?_, ?_⟩
    · simp only [offerAll, hi]
      exact h1
    · have hp2 := insertBeforeFirstGreater_perm q.comparer x q.root
      have hp3 : q2.root.Perm (rest ++ (x :: q.root)) :=
        h4.trans (List.Perm.append_left rest hp2)
      exact hp3.trans List.perm_middle
    · intro hc hp
      exact h5 hc (insertBeforeFirstGreater_pairwise hc x hp)

/-- C9: with a consistent comparator, offering the items of any list into a
freshly initialized queue always succeeds, and polling as many times
returns exactly the queued chain: a permutation of the offered items in
non-decreasing comparator order, leaving the queue empty. -/
theorem c9_round_trip {α : Type} (cmp : α → α → Int) (hc : ConsistentCmp cmp)
    (l : List α) :
    ∃ q, offerAll (priqueue_init cmp) l = some q ∧
      pollN l.length q = some (q.root, priqueue_init cmp) ∧
      q.root.Perm l ∧ q.root.Chain' (fun a b => cmp a b ≤ 0) := by
  obtain ⟨q, h1, h2, h3, h4, h5⟩ := offerAll_eq l (priqueue_init cmp) rfl
  have hc2 : q.comparer = cmp := h2
  have hperm : q.root.Perm l := by simpa [priqueue_init] using h4
  have hsort : q.root.Pairwise (fun a b => cmp a b ≤ 0) :=
    h5 hc List.Pairwise.nil
  have hlen : l.length = q.root.length := hperm.length_eq.symm
  have hqe : q = ⟨q.root.length, q.root, cmp⟩ := by
    rw [← h3, ← hc2]
  refine ⟨q, h1, ?_, hperm, hsort.chain'⟩
  rw [hlen, hqe]
  exact pollN_eq q.root cmp

/-- C9 witness: offering [2, 0, 1] over `Fin 3` and polling three times. -/
theorem c9_round_trip_witness :
    ConsistentCmp finCmp ∧
    (∃ q, offerAll (priqueue_init finCmp) [2, 0, 1] = some q ∧
      pollN ([2, 0, 1] : List (Fin 3)).length q =
        some (q.root, priqueue_init finCmp) ∧
      q.root.Perm [2, 0, 1] ∧ q.root.Chain' (fun a b => finCmp a b ≤ 0)) :=
  ⟨by unfold ConsistentCmp; decide,
   c9_round_trip finCmp (by unfold ConsistentCmp; decide) [2, 0, 1]⟩
